import Mathlib

set_option synthInstance.maxSize 2000

/-!
Verification of the amolyst staged ETL core (src/amolyst/state.py and
src/amolyst/base.py) against its natural-language specification.

The Python 2 code stores data in nested `defaultdict`s of plain `dict`s.
We embed a Python dict as an association list (`Dict V`) whose insert
(`dinsert`) replaces the first binding of an existing key in place and
appends fresh keys, matching `d[k] = v`; `dupdate` folds `dinsert` over
the other dict, matching `d.update(other)`; `getd` reads with a default,
matching `defaultdict` access. Python sets of strings are embedded as
lists with membership-checking insert (`sinsert`, `sunion`). The Python 2
`dict.iteritems()` call returns a one-shot iterator; we embed it as
`DictIter`, whose `traverse` yields the remaining elements and an
exhausted iterator.
-/

namespace Amolyst

/-- Values stored in entries: the code stores arbitrary JSON-ish values;
strings and integers suffice for everything the claims mention. -/
inductive Value where
  | str : String → Value
  | int : Int → Value
deriving DecidableEq, Repr

/-- A Python dict with string keys, embedded as an association list. -/
abbrev Dict (V : Type) : Type := List (String × V)

/-- Python dict lookup `d[k]` (as an `Option`): first binding wins. -/
def dlookup {V : Type} : Dict V → String → Option V
  | [], _ => none
  | (k', v) :: rest, k => if k' = k then some v else dlookup rest k

/-- Python dict assignment `d[k] = v`: replaces the first binding of `k`
in place, appends when `k` is fresh. -/
def dinsert {V : Type} (k : String) (v : V) : Dict V → Dict V
  | [] => [(k, v)]
  | (k', v') :: rest => if k' = k then (k, v) :: rest else (k', v') :: dinsert k v rest

/-- Python `d.update(other)`: sets each binding of `other` in turn. -/
def dupdate {V : Type} (d other : Dict V) : Dict V :=
  other.foldl (fun acc p => dinsert p.1 p.2 acc) d

/-- Python `d.keys()`. -/
def dkeys {V : Type} (d : Dict V) : List String :=
  d.map Prod.fst

/-- `defaultdict` read: the stored value, or the default when absent. -/
def getd {V : Type} (d : Dict V) (k : String) (dfl : V) : V :=
  (dlookup d k).getD dfl

/-- Python `set.add`. -/
def sinsert (x : String) (s : List String) : List String :=
  if x ∈ s then s else s ++ [x]

/-- Python `set.update(xs)`. -/
def sunion (s : List String) (xs : List String) : List String :=
  xs.foldl (fun acc x => sinsert x acc) s

theorem dlookup_dinsert_self {V : Type} (d : Dict V) (k : String) (v : V) :
    dlookup (dinsert k v d) k = some v := by
  induction d with
  | nil => simp [dinsert, dlookup]
  | cons p rest ih =>
    by_cases h : p.1 = k
    · simp [dinsert, h, dlookup]
    · simp [dinsert, h, dlookup, ih]

theorem dlookup_dinsert_ne {V : Type} (d : Dict V) {k k' : String} (v : V)
    (h : k' ≠ k) : dlookup (dinsert k v d) k' = dlookup d k' := by
  have h2 : ¬(k = k') := Ne.symm h
  induction d with
  | nil => simp [dinsert, dlookup, h2]
  | cons p rest ih =>
    by_cases hk : p.1 = k
    · simp [dinsert, hk, dlookup, h2]
    · by_cases hk' : p.1 = k'
      · simp [dinsert, hk, dlookup, hk', h, h2]
      · simp [dinsert, hk, dlookup, hk', ih]

theorem getd_dinsert_self {V : Type} (d : Dict V) (k : String) (v dfl : V) :
    getd (dinsert k v d) k dfl = v := by
  simp [getd, dlookup_dinsert_self]

theorem getd_dinsert_ne {V : Type} (d : Dict V) {k k' : String} (v dfl : V)
    (h : k' ≠ k) : getd (dinsert k v d) k' dfl = getd d k' dfl := by
  simp [getd, dlookup_dinsert_ne d v h]

theorem dkeys_cons {V : Type} (p : String × V) (d : Dict V) :
    dkeys (p :: d) = p.1 :: dkeys d := rfl

theorem dkeys_dinsert {V : Type} (d : Dict V) (k : String) (v : V) :
    dkeys (dinsert k v d) = if k ∈ dkeys d then dkeys d else dkeys d ++ [k] := by
  induction d with
  | nil => simp [dinsert, dkeys]
  | cons p rest ih =>
    obtain ⟨k0, v0⟩ := p
    by_cases h : k0 = k
    · subst h
      simp [dinsert, dkeys_cons, List.mem_cons]
    · have h' : k ≠ k0 := Ne.symm h
      have e1 : dinsert k v ((k0, v0) :: rest) = (k0, v0) :: dinsert k v rest := by
        simp [dinsert, h]
      rw [e1, dkeys_cons, dkeys_cons, ih]
      by_cases hm : k ∈ dkeys rest
      · rw [if_pos hm, if_pos (by simp [List.mem_cons, hm])]
      · rw [if_neg hm, if_neg (by simp [List.mem_cons, hm, h']), List.cons_append]

theorem mem_dkeys_dinsert_self {V : Type} (d : Dict V) (k : String) (v : V) :
    k ∈ dkeys (dinsert k v d) := by
  rw [dkeys_dinsert]
  by_cases h : k ∈ dkeys d <;> simp [h]

theorem dkeys_dinsert_subset {V : Type} (d : Dict V) (k : String) (v : V) :
    ∀ x ∈ dkeys (dinsert k v d), x = k ∨ x ∈ dkeys d := by
  intro x hx
  rw [dkeys_dinsert] at hx
  by_cases h : k ∈ dkeys d
  · simp [h] at hx; exact Or.inr hx
  · simp [h] at hx
    rcases hx with hx | hx
    · exact Or.inr hx
    · exact Or.inl hx

theorem dlookup_eq_none_iff {V : Type} (d : Dict V) (k : String) :
    dlookup d k = none ↔ k ∉ dkeys d := by
  induction d with
  | nil => simp [dlookup, dkeys]
  | cons p rest ih =>
    by_cases h : p.1 = k
    · simp [dlookup, h, dkeys]
    · have h' : ¬(k = p.1) := fun hh => h hh.symm
      simp [dlookup, h, dkeys, h', ih]

theorem dinsert_dinsert_same {V : Type} (d : Dict V) (k : String) (v w : V) :
    dinsert k v (dinsert k w d) = dinsert k v d := by
  induction d with
  | nil => simp [dinsert]
  | cons p rest ih =>
    by_cases h : p.1 = k
    · simp [dinsert, h]
    · simp [dinsert, h, ih]

theorem dinsert_lookup_eq {V : Type} (d : Dict V) {k : String} {v : V}
    (h : dlookup d k = some v) : dinsert k v d = d := by
  induction d with
  | nil => simp [dlookup] at h
  | cons p rest ih =>
    obtain ⟨k0, v0⟩ := p
    by_cases hk : k0 = k
    · subst hk
      simp [dlookup] at h
      simp [dinsert, h]
    · simp [dlookup, hk] at h
      simp [dinsert, hk, ih h]

theorem dupdate_nil {V : Type} (d : Dict V) : dupdate d [] = d := rfl

theorem dupdate_cons {V : Type} (d : Dict V) (p : String × V) (o : Dict V) :
    dupdate d (p :: o) = dupdate (dinsert p.1 p.2 d) o := rfl

theorem dlookup_dupdate_not_mem {V : Type} (o : Dict V) :
    ∀ (d : Dict V) (k : String), k ∉ dkeys o →
      dlookup (dupdate d o) k = dlookup d k := by
  induction o with
  | nil => intro d k _; rfl
  | cons p rest ih =>
    intro d k hm
    rw [dkeys_cons, List.mem_cons] at hm
    push_neg at hm
    rw [dupdate_cons, ih _ k hm.2, dlookup_dinsert_ne _ _ hm.1]

theorem dlookup_dupdate_mem {V : Type} (o : Dict V) :
    ∀ (d : Dict V) (k : String) (v : V), (dkeys o).Nodup →
      dlookup o k = some v → dlookup (dupdate d o) k = some v := by
  induction o with
  | nil => intro d k v _ h; simp [dlookup] at h
  | cons p rest ih =>
    intro d k v hnd h
    rw [dkeys_cons, List.nodup_cons] at hnd
    rw [dupdate_cons]
    by_cases hk : p.1 = k
    · rw [dlookup] at h
      rw [if_pos hk] at h
      have hkm : k ∉ dkeys rest := hk ▸ hnd.1
      rw [dlookup_dupdate_not_mem rest _ k hkm, hk, dlookup_dinsert_self]
      exact h
    · rw [dlookup] at h
      rw [if_neg hk] at h
      exact ih _ k v hnd.2 h

theorem dkeys_dupdate_subset {V : Type} (o : Dict V) :
    ∀ (d : Dict V) (x : String), x ∈ dkeys (dupdate d o) →
      x ∈ dkeys d ∨ x ∈ dkeys o := by
  induction o with
  | nil => intro d x hx; exact Or.inl hx
  | cons p rest ih =>
    intro d x hx
    rw [dupdate_cons] at hx
    rcases ih _ x hx with hx | hx
    · rcases dkeys_dinsert_subset d p.1 p.2 x hx with hx | hx
      · exact Or.inr (by simp [dkeys_cons, hx])
      · exact Or.inl hx
    · exact Or.inr (by simp [dkeys_cons, hx])

theorem dupdate_idem {V : Type} (o : Dict V) :
    ∀ d : Dict V, (dkeys o).Nodup → dupdate (dupdate d o) o = dupdate d o := by
  induction o with
  | nil => intro d _; rfl
  | cons p rest ih =>
    intro d hnd
    rw [dkeys_cons, List.nodup_cons] at hnd
    rw [dupdate_cons, dupdate_cons]
    have hl : dlookup (dupdate (dinsert p.1 p.2 d) rest) p.1 = some p.2 := by
      rw [dlookup_dupdate_not_mem rest _ p.1 hnd.1, dlookup_dinsert_self]
    rw [dinsert_lookup_eq _ hl]
    exact ih _ hnd.2

theorem mem_sinsert (x y : String) (s : List String) :
    y ∈ sinsert x s ↔ y = x ∨ y ∈ s := by
  by_cases hx : x ∈ s
  · simp only [sinsert, if_pos hx]
    exact ⟨Or.inr, fun h => h.elim (fun e => e ▸ hx) id⟩
  · simp only [sinsert, if_neg hx]
    simp [List.mem_append, or_comm]

theorem sunion_cons (s : List String) (x : String) (xs : List String) :
    sunion s (x :: xs) = sunion (sinsert x s) xs := rfl

theorem mem_sunion (xs : List String) :
    ∀ (s : List String) (y : String), y ∈ sunion s xs ↔ y ∈ s ∨ y ∈ xs := by
  induction xs with
  | nil => intro s y; simp [sunion]
  | cons x rest ih =>
    intro s y
    rw [sunion_cons, ih, mem_sinsert, List.mem_cons]
    tauto

theorem sinsert_of_mem {x : String} {s : List String} (h : x ∈ s) :
    sinsert x s = s := if_pos h

theorem sunion_absorb (xs : List String) :
    ∀ s : List String, (∀ x ∈ xs, x ∈ s) → sunion s xs = s := by
  induction xs with
  | nil => intro s _; rfl
  | cons x rest ih =>
    intro s hs
    rw [sunion_cons, sinsert_of_mem (hs x (by simp))]
    exact ih s fun z hz => hs z (by simp [hz])

theorem sunion_idem (s xs : List String) :
    sunion (sunion s xs) xs = sunion s xs :=
  sunion_absorb xs _ fun x hx => (mem_sunion xs s x).mpr (Or.inr hx)

theorem mem_sunion_left {y : String} {s : List String} (xs : List String)
    (h : y ∈ s) : y ∈ sunion s xs :=
  (mem_sunion xs s y).mpr (Or.inl h)

theorem mem_sunion_right {y : String} (s : List String) {xs : List String}
    (h : y ∈ xs) : y ∈ sunion s xs :=
  (mem_sunion xs s y).mpr (Or.inr h)

/-- `Collector.CATEGORY` from src/amolyst/base.py: the default category used
by relation-only collectors and by `relationitems`. -/
def Collector.CATEGORY : String := "_root"

/-- `ProcessorMemoryState` from src/amolyst/state.py:
`outdata = defaultdict(partial(defaultdict, dict))` maps a namespace to a
map from identifier to merged record; `fields = defaultdict(set)` maps a
namespace to the set of field names seen so far. -/
structure ProcessorMemoryState where
  outdata : Dict (Dict (Dict Value))
  fields : Dict (List String)
deriving DecidableEq, Repr

/-- The state as freshly constructed (both defaultdicts empty). -/
def ProcessorMemoryState.empty : ProcessorMemoryState := ⟨[], []⟩

/-- `ProcessorMemoryState.update`:
`self.outdata[namespace][ident].update(value)` followed by
`self.fields[namespace].update(value.keys())`. -/
def ProcessorMemoryState.update (s : ProcessorMemoryState) (ns ident : String)
    (value : Dict Value) : ProcessorMemoryState :=
  let nsdata := getd s.outdata ns []
  let entry := getd nsdata ident []
  { outdata := dinsert ns (dinsert ident (dupdate entry value) nsdata) s.outdata,
    fields := dinsert ns (sunion (getd s.fields ns []) (dkeys value)) s.fields }

/-- `ProcessorMemoryState.fieldnames`: `return self.fields[namespace]`. -/
def ProcessorMemoryState.fieldnames (s : ProcessorMemoryState) (ns : String) :
    List String :=
  getd s.fields ns []

/-- The record stored at `(ns, ident)`, the empty dict when absent
(`outdata` is a defaultdict of defaultdicts of dicts). -/
def ProcessorMemoryState.record (s : ProcessorMemoryState) (ns ident : String) :
    Dict Value :=
  getd (getd s.outdata ns []) ident []

theorem record_update_self (s : ProcessorMemoryState) (ns ident : String)
    (value : Dict Value) :
    (s.update ns ident value).record ns ident =
      dupdate (s.record ns ident) value := by
  simp [ProcessorMemoryState.update, ProcessorMemoryState.record, getd_dinsert_self]

theorem record_update_ne (s : ProcessorMemoryState) {ns ident ns' ident' : String}
    (value : Dict Value) (h : ¬(ns' = ns ∧ ident' = ident)) :
    (s.update ns ident value).record ns' ident' = s.record ns' ident' := by
  by_cases hns : ns' = ns
  · have hid : ident' ≠ ident := fun he => h ⟨hns, he⟩
    subst hns
    simp [ProcessorMemoryState.update, ProcessorMemoryState.record,
      getd_dinsert_self, getd_dinsert_ne _ _ _ hid]
  · simp [ProcessorMemoryState.update, ProcessorMemoryState.record,
      getd_dinsert_ne _ _ _ hns]

theorem fieldnames_update_self (s : ProcessorMemoryState) (ns ident : String)
    (value : Dict Value) :
    (s.update ns ident value).fieldnames ns =
      sunion (s.fieldnames ns) (dkeys value) := by
  simp [ProcessorMemoryState.update, ProcessorMemoryState.fieldnames, getd_dinsert_self]

theorem fieldnames_update_ne (s : ProcessorMemoryState) {ns ns' : String}
    (ident : String) (value : Dict Value) (h : ns' ≠ ns) :
    (s.update ns ident value).fieldnames ns' = s.fieldnames ns' := by
  simp [ProcessorMemoryState.update, ProcessorMemoryState.fieldnames,
    getd_dinsert_ne _ _ _ h]

theorem fieldnames_update_mono (s : ProcessorMemoryState) (ns ident ns' : String)
    (value : Dict Value) {k : String} (h : k ∈ s.fieldnames ns') :
    k ∈ (s.update ns ident value).fieldnames ns' := by
  by_cases hns : ns' = ns
  · subst hns
    rw [fieldnames_update_self]
    exact mem_sunion_left _ h
  · rw [fieldnames_update_ne _ _ _ hns]
    exact h

/-- `CollectorMemoryState` from src/amolyst/state.py:
`data = defaultdict(partial(defaultdict, dict))` maps a namespace to a map
from category to a dict of raw entries keyed by identifier;
`relations = defaultdict(partial(defaultdict, dict))` maps a namespace to a
map from category to a dict associating a to-id to each from-id. -/
structure CollectorMemoryState where
  data : Dict (Dict (Dict (Dict Value)))
  relations : Dict (Dict (Dict String))
deriving DecidableEq, Repr

/-- The state as freshly constructed (both defaultdicts empty). -/
def CollectorMemoryState.empty : CollectorMemoryState := ⟨[], []⟩

/-- `CollectorMemoryState.field`:
`self.data[namespace][category][ident] = entry`. -/
def CollectorMemoryState.field (cs : CollectorMemoryState)
    (ns cat ident : String) (entry : Dict Value) : CollectorMemoryState :=
  let nsdata := getd cs.data ns []
  let catdata := getd nsdata cat []
  { cs with data := dinsert ns (dinsert cat (dinsert ident entry catdata) nsdata) cs.data }

/-- `CollectorMemoryState.relate`:
`self.relations[namespace][category][fromid] = toid`. -/
def CollectorMemoryState.relate (cs : CollectorMemoryState)
    (ns cat fromid toid : String) : CollectorMemoryState :=
  let nsdata := getd cs.relations ns []
  let catdata := getd nsdata cat []
  { cs with relations := dinsert ns (dinsert cat (dinsert fromid toid catdata) nsdata) cs.relations }

/-- A Python 2 dictionary-items iterator, as returned by `dict.iteritems()`:
it holds the not-yet-yielded elements and is consumed by iteration. -/
structure DictIter (α : Type) where
  remaining : List α
deriving DecidableEq, Repr

/-- One full `for` loop over the iterator: yields every remaining element
and leaves the iterator exhausted. -/
def DictIter.traverse {α : Type} (it : DictIter α) : List α × DictIter α :=
  (it.remaining, ⟨[]⟩)

/-- The dict of raw entries at `(ns, cat)` (a verification accessor for
`self.data[namespace][category]`, the empty dict when absent). -/
def CollectorMemoryState.cdict (cs : CollectorMemoryState) (ns cat : String) :
    Dict (Dict Value) :=
  getd (getd cs.data ns []) cat []

/-- `CollectorMemoryState.items`:
`return self.data[namespace][category].iteritems()`. -/
def CollectorMemoryState.items (cs : CollectorMemoryState) (ns cat : String) :
    DictIter (String × Dict Value) :=
  ⟨cs.cdict ns cat⟩

/-- The relation dict of `ns` at the default category (a verification
accessor for `self.relations[namespace][Collector.CATEGORY]`). -/
def CollectorMemoryState.rdict (cs : CollectorMemoryState) (ns : String) :
    Dict String :=
  getd (getd cs.relations ns []) Collector.CATEGORY []

/-- `CollectorMemoryState.relationitems`:
`return self.relations[namespace][Collector.CATEGORY].iteritems()`. -/
def CollectorMemoryState.relationitems (cs : CollectorMemoryState) (ns : String) :
    DictIter (String × String) :=
  ⟨cs.rdict ns⟩

theorem cdict_field_self (cs : CollectorMemoryState) (ns cat ident : String)
    (entry : Dict Value) :
    (cs.field ns cat ident entry).cdict ns cat =
      dinsert ident entry (cs.cdict ns cat) := by
  simp [CollectorMemoryState.field, CollectorMemoryState.cdict, getd_dinsert_self]

theorem cdict_field_ne (cs : CollectorMemoryState) {ns cat ns' cat' : String}
    (ident : String) (entry : Dict Value) (h : ¬(ns' = ns ∧ cat' = cat)) :
    (cs.field ns cat ident entry).cdict ns' cat' = cs.cdict ns' cat' := by
  by_cases hns : ns' = ns
  · have hcat : cat' ≠ cat := fun he => h ⟨hns, he⟩
    subst hns
    simp [CollectorMemoryState.field, CollectorMemoryState.cdict,
      getd_dinsert_self, getd_dinsert_ne _ _ _ hcat]
  · simp [CollectorMemoryState.field, CollectorMemoryState.cdict,
      getd_dinsert_ne _ _ _ hns]

theorem cdict_relate (cs : CollectorMemoryState) (ns cat fromid toid : String)
    (ns' cat' : String) :
    (cs.relate ns cat fromid toid).cdict ns' cat' = cs.cdict ns' cat' := rfl

theorem rdict_field (cs : CollectorMemoryState) (ns cat ident : String)
    (entry : Dict Value) (ns' : String) :
    (cs.field ns cat ident entry).rdict ns' = cs.rdict ns' := rfl

theorem rdict_relate_ne (cs : CollectorMemoryState) {ns ns' : String}
    (cat fromid toid : String) (h : ns' ≠ ns) :
    (cs.relate ns cat fromid toid).rdict ns' = cs.rdict ns' := by
  simp [CollectorMemoryState.relate, CollectorMemoryState.rdict,
    getd_dinsert_ne _ _ _ h]

/-- The qualified-key dict built inside `Processor.processfields`:
`fielddata = {}`, then `fielddata["%s.%s" % (category, key)] = value` for
each `(key, value)` of the transformed fields. -/
def prefixcat (category : String) (fields : Dict Value) : Dict Value :=
  fields.foldl (fun acc p => dinsert (category ++ "." ++ p.1) p.2 acc) []

/-- `Processor.processfields`: for each `(ident, entry)` yielded by
`self.cstate.items(namespace, category)`, computes `func(entry)` (a Python
call that may raise, aborting the loop: modelled with `Except`), prefixes
its keys with the category and merges the result via
`self.pstate.update(namespace, ident, fielddata)`. -/
def Processor.processfields (cs : CollectorMemoryState) (ps : ProcessorMemoryState)
    (ns cat : String) (func : Dict Value → Except String (Dict Value)) :
    Except String ProcessorMemoryState :=
  ((cs.items ns cat).traverse.1).foldlM
    (fun st p => do
      let fields ← func p.2
      pure (st.update ns p.1 (prefixcat cat fields)))
    ps

/-- The inner `limitfields` of `Processor.selectfields`:
`{field: entry[field] for field in fields}`; `entry[field]` for a missing
field raises `KeyError(field)`, modelled as `Except.error field`. -/
def limitfields (fields : List String) (entry : Dict Value) :
    Except String (Dict Value) :=
  fields.foldlM
    (fun acc f =>
      match dlookup entry f with
      | some v => pure (dinsert f v acc)
      | none => Except.error f)
    []

/-- The inner `allfields` of `Processor.selectfields`: the entry itself. -/
def allfields (entry : Dict Value) : Except String (Dict Value) :=
  Except.ok entry

/-- `Processor.selectfields`: `processfields` with `allfields` when no
field list is passed, `limitfields` otherwise. -/
def Processor.selectfields (cs : CollectorMemoryState) (ps : ProcessorMemoryState)
    (ns cat : String) (fields : Option (List String)) :
    Except String ProcessorMemoryState :=
  Processor.processfields cs ps ns cat
    (match fields with
     | none => allfields
     | some fs => limitfields fs)

/-- `Processor.relate`: `namespace = from_ns + "--" + to_ns`; for each
`(fromdata, todata)` yielded by `self.cstate.relationitems(namespace)`,
merges `{from_ns: fromdata, to_ns: todata}` at identifier
`"{}-{}".format(fromdata, todata)`. -/
def Processor.relate (cs : CollectorMemoryState) (ps : ProcessorMemoryState)
    (from_ns to_ns : String) : ProcessorMemoryState :=
  let ns := from_ns ++ "--" ++ to_ns
  ((cs.relationitems ns).traverse.1).foldl
    (fun st p =>
      st.update ns (p.1 ++ "-" ++ p.2)
        (dinsert to_ns (Value.str p.2) (dinsert from_ns (Value.str p.1) [])))
    ps

theorem strcat_left_cancel {p s t : String} (h : p ++ s = p ++ t) : s = t := by
  have h2 : (p ++ s).data = (p ++ t).data := congrArg String.data h
  rw [String.data_append, String.data_append] at h2
  exact String.ext (List.append_cancel_left h2)

theorem catkey_inj (cat : String) :
    Function.Injective (fun k => cat ++ "." ++ k) := by
  intro a b h
  exact strcat_left_cancel h

theorem record_foldl_update_notmem {α : Type} (ns : String) (g : α → String)
    (h : α → Dict Value) (l : List α) :
    ∀ (ps : ProcessorMemoryState) (ns' ident : String),
      (ns' ≠ ns ∨ ident ∉ l.map g) →
      ((l.foldl (fun st a => st.update ns (g a) (h a)) ps).record ns' ident) =
        ps.record ns' ident := by
  induction l with
  | nil => intro ps ns' ident _; rfl
  | cons b rest ih =>
    intro ps ns' ident hcond
    have hcond' : ns' ≠ ns ∨ ident ∉ rest.map g := by
      rcases hcond with hc | hc
      · exact Or.inl hc
      · exact Or.inr fun hm => hc (by simp [List.map_cons, List.mem_cons, hm])
    rw [List.foldl_cons, ih _ _ _ hcond']
    apply record_update_ne
    rintro ⟨hns, hid⟩
    rcases hcond with hc | hc
    · exact hc hns
    · exact hc (by simp [List.map_cons, List.mem_cons, hid])

theorem record_foldl_update_eq {α : Type} (ns : String) (g : α → String)
    (h : α → Dict Value) (l : List α) :
    ∀ (ps : ProcessorMemoryState) (a : α), (l.map g).Nodup → a ∈ l →
      ((l.foldl (fun st x => st.update ns (g x) (h x)) ps).record ns (g a)) =
        dupdate (ps.record ns (g a)) (h a) := by
  induction l with
  | nil => intro ps a _ ha; exact absurd ha (List.not_mem_nil a)
  | cons b rest ih =>
    intro ps a hnd ha
    rw [List.map_cons, List.nodup_cons] at hnd
    rw [List.foldl_cons]
    rcases List.mem_cons.mp ha with hab | ha'
    · subst hab
      rw [record_foldl_update_notmem ns g h rest _ _ _ (Or.inr hnd.1)]
      exact record_update_self ps ns (g a) (h a)
    · have hgab : g a ≠ g b := by
        intro he
        exact hnd.1 (he ▸ List.mem_map_of_mem g ha')
      rw [ih _ a hnd.2 ha', record_update_ne _ _ fun hc => hgab hc.2]

theorem foldlM_except_error {α σ ε : Type} (f : σ → α → Except ε σ)
    (a : α) (herr : ∀ s, ∃ e, f s a = Except.error e) (l : List α) :
    ∀ s, a ∈ l → ∃ e, l.foldlM f s = Except.error e := by
  induction l with
  | nil => intro s ha; exact absurd ha (List.not_mem_nil a)
  | cons b rest ih =>
    intro s ha
    rcases List.mem_cons.mp ha with hab | ha'
    · subst hab
      obtain ⟨e, he⟩ := herr s
      exact ⟨e, by rw [List.foldlM_cons, he]; rfl⟩
    · cases hfb : f s b with
      | error e => exact ⟨e, by rw [List.foldlM_cons, hfb]; rfl⟩
      | ok s' =>
        obtain ⟨e, he⟩ := ih s' ha'
        exact ⟨e, by rw [List.foldlM_cons, hfb]; simpa using he⟩

theorem processfields_pure_aux (ns cat : String) (f : Dict Value → Dict Value)
    (l : List (String × Dict Value)) :
    ∀ ps : ProcessorMemoryState,
      (l.foldlM (fun st p => do
          let fields ← (Except.ok (f p.2) : Except String (Dict Value))
          pure (st.update ns p.1 (prefixcat cat fields))) ps) =
        Except.ok (l.foldl (fun st p => st.update ns p.1 (prefixcat cat (f p.2))) ps) := by
  induction l with
  | nil => intro ps; rfl
  | cons b rest ih =>
    intro ps
    rw [List.foldlM_cons]
    simpa using ih _

theorem processfields_pure (cs : CollectorMemoryState) (ps : ProcessorMemoryState)
    (ns cat : String) (f : Dict Value → Dict Value) :
    Processor.processfields cs ps ns cat (fun e => Except.ok (f e)) =
      Except.ok (((cs.items ns cat).traverse.1).foldl
        (fun st p => st.update ns p.1 (prefixcat cat (f p.2))) ps) :=
  processfields_pure_aux ns cat f _ ps

theorem dinsert_not_mem {V : Type} (d : Dict V) (k : String) (v : V)
    (h : k ∉ dkeys d) : dinsert k v d = d ++ [(k, v)] := by
  induction d with
  | nil => simp [dinsert]
  | cons p rest ih =>
    rw [dkeys_cons, List.mem_cons] at h
    push_neg at h
    rw [List.cons_append, ← ih h.2]
    simp [dinsert, Ne.symm h.1]

theorem prefixcat_aux (cat : String) (d : Dict Value) :
    ∀ acc : Dict Value,
      (∀ p ∈ d, (cat ++ "." ++ p.1) ∉ dkeys acc) →
      ((dkeys d).map (fun k => cat ++ "." ++ k)).Nodup →
      (d.foldl (fun acc p => dinsert (cat ++ "." ++ p.1) p.2 acc) acc) =
        acc ++ d.map (fun p => (cat ++ "." ++ p.1, p.2)) := by
  induction d with
  | nil => intro acc _ _; simp
  | cons p rest ih =>
    intro acc hfresh hnd
    rw [dkeys_cons, List.map_cons, List.nodup_cons] at hnd
    rw [List.foldl_cons, dinsert_not_mem acc _ _ (hfresh p (by simp))]
    rw [ih _ ?_ hnd.2]
    · simp
    · intro q hq
      rw [dkeys] at *
      simp only [List.map_append, List.mem_append]
      push_neg
      constructor
      · exact hfresh q (by simp [hq])
      · simp only [List.map_cons, List.map_nil, List.mem_singleton]
        intro he
        exact hnd.1 (he ▸ List.mem_map_of_mem _ (List.mem_map_of_mem Prod.fst hq))

theorem prefixcat_eq_map (cat : String) (d : Dict Value)
    (hnd : (dkeys d).Nodup) :
    prefixcat cat d = d.map (fun p => (cat ++ "." ++ p.1, p.2)) := by
  have hinj : ((dkeys d).map (fun k => cat ++ "." ++ k)).Nodup :=
    hnd.map (catkey_inj cat)
  simpa [prefixcat] using prefixcat_aux cat d [] (by simp [dkeys]) hinj

theorem dlookup_map_catkey (cat : String) (d : Dict Value) (k : String) :
    dlookup (d.map (fun p => (cat ++ "." ++ p.1, p.2))) (cat ++ "." ++ k) =
      dlookup d k := by
  induction d with
  | nil => rfl
  | cons p rest ih =>
    by_cases hk : p.1 = k
    · subst hk
      simp [dlookup]
    · have hne : ¬(cat ++ "." ++ p.1 = cat ++ "." ++ k) :=
        fun he => hk (catkey_inj cat he)
      simp [dlookup, hk, hne, ih]

theorem dlookup_prefixcat (cat : String) (d : Dict Value) (k : String)
    (hnd : (dkeys d).Nodup) :
    dlookup (prefixcat cat d) (cat ++ "." ++ k) = dlookup d k := by
  rw [prefixcat_eq_map cat d hnd, dlookup_map_catkey]

theorem dkeys_prefixcat (cat : String) (d : Dict Value)
    (hnd : (dkeys d).Nodup) :
    dkeys (prefixcat cat d) = (dkeys d).map (fun k => cat ++ "." ++ k) := by
  rw [prefixcat_eq_map cat d hnd]
  simp [dkeys, List.map_map]

theorem nodup_dkeys_prefixcat (cat : String) (d : Dict Value)
    (hnd : (dkeys d).Nodup) :
    (dkeys (prefixcat cat d)).Nodup := by
  rw [dkeys_prefixcat cat d hnd]
  exact hnd.map (catkey_inj cat)

theorem dkeys_nodup_dinsert {V : Type} (d : Dict V) (k : String) (v : V)
    (h : (dkeys d).Nodup) : (dkeys (dinsert k v d)).Nodup := by
  rw [dkeys_dinsert]
  by_cases hm : k ∈ dkeys d
  · simpa [hm] using h
  · simp only [hm, if_false]
    rw [List.nodup_append]
    exact ⟨h, List.nodup_singleton k, by simpa [List.disjoint_singleton] using hm⟩

theorem filter_eq_nil_of_not_mem {V : Type} (d : Dict V) (k : String)
    (h : k ∉ dkeys d) : d.filter (fun p => p.1 == k) = [] := by
  induction d with
  | nil => rfl
  | cons p rest ih =>
    rw [dkeys_cons, List.mem_cons] at h
    push_neg at h
    have hne : (p.1 == k) = false := by simp [Ne.symm h.1]
    simp [List.filter_cons, hne, ih h.2]

theorem filter_eq_single_of_lookup {V : Type} (d : Dict V) (k : String) (v : V)
    (hnd : (dkeys d).Nodup) (hl : dlookup d k = some v) :
    d.filter (fun p => p.1 == k) = [(k, v)] := by
  induction d with
  | nil => simp [dlookup] at hl
  | cons p rest ih =>
    obtain ⟨k0, v0⟩ := p
    rw [dkeys_cons, List.nodup_cons] at hnd
    by_cases hk : k0 = k
    · subst hk
      rw [dlookup, if_pos rfl] at hl
      have hv : v0 = v := by injection hl
      subst hv
      simp [List.filter_cons, filter_eq_nil_of_not_mem rest k0 hnd.1]
    · rw [dlookup, if_neg hk] at hl
      have hne : ((k0, v0).1 == k) = false := by simp [hk]
      simp [List.filter_cons, hne, ih hnd.2 hl]

theorem cdict_foldl_field_nodup (ns cat ident : String) (es : List (Dict Value)) :
    ∀ cs : CollectorMemoryState, (dkeys (cs.cdict ns cat)).Nodup →
      (dkeys ((es.foldl (fun st e => st.field ns cat ident e) cs).cdict ns cat)).Nodup := by
  induction es with
  | nil => intro cs h; exact h
  | cons e rest ih =>
    intro cs h
    rw [List.foldl_cons]
    exact ih _ (by rw [cdict_field_self]; exact dkeys_nodup_dinsert _ _ _ h)

/-- A single collector-store write, as invoked through the
`CollectorState` interface of src/amolyst/state.py. -/
inductive COp where
  | fieldOp (ns cat ident : String) (entry : Dict Value)
  | relateOp (ns cat fromid toid : String)
deriving DecidableEq, Repr

/-- Apply one write to the collector store. -/
def applyCOp (cs : CollectorMemoryState) : COp → CollectorMemoryState
  | .fieldOp ns cat ident entry => cs.field ns cat ident entry
  | .relateOp ns cat fromid toid => cs.relate ns cat fromid toid

/-- The collector store produced by a run that performs the given writes,
starting from the freshly constructed empty state. -/
def runC (ops : List COp) : CollectorMemoryState :=
  ops.foldl applyCOp CollectorMemoryState.empty

/-- Does this write touch the raw entries at `(ns, cat)`? -/
def COp.writesEntries : COp → String → String → Bool
  | .fieldOp ns' cat' _ _, ns, cat => ns' == ns && cat' == cat
  | .relateOp _ _ _ _, _, _ => false

/-- Does this write touch the relation table of namespace `ns`? -/
def COp.writesRelations : COp → String → Bool
  | .fieldOp _ _ _ _, _ => false
  | .relateOp ns' _ _ _, ns => ns' == ns

theorem cdict_applyCOp_ne (cs : CollectorMemoryState) (op : COp)
    (ns cat : String) (h : op.writesEntries ns cat = false) :
    (applyCOp cs op).cdict ns cat = cs.cdict ns cat := by
  cases op with
  | fieldOp ns' cat' ident entry =>
    simp only [COp.writesEntries, Bool.and_eq_false_iff, beq_eq_false_iff_ne] at h
    apply cdict_field_ne
    rintro ⟨hns, hcat⟩
    rcases h with h | h
    · exact h hns.symm
    · exact h hcat.symm
  | relateOp ns' cat' fromid toid => exact cdict_relate cs ns' cat' fromid toid ns cat

theorem rdict_applyCOp_ne (cs : CollectorMemoryState) (op : COp)
    (ns : String) (h : op.writesRelations ns = false) :
    (applyCOp cs op).rdict ns = cs.rdict ns := by
  cases op with
  | fieldOp ns' cat' ident entry => exact rdict_field cs ns' cat' ident entry ns
  | relateOp ns' cat' fromid toid =>
    simp only [COp.writesRelations, beq_eq_false_iff_ne] at h
    exact rdict_relate_ne cs cat' fromid toid (Ne.symm h)

theorem cdict_foldl_applyCOp (ns cat : String) (ops : List COp) :
    ∀ cs : CollectorMemoryState, (∀ op ∈ ops, op.writesEntries ns cat = false) →
      (ops.foldl applyCOp cs).cdict ns cat = cs.cdict ns cat := by
  induction ops with
  | nil => intro cs _; rfl
  | cons op rest ih =>
    intro cs h
    rw [List.foldl_cons, ih _ fun o ho => h o (by simp [ho]),
      cdict_applyCOp_ne cs op ns cat (h op (by simp))]

theorem rdict_foldl_applyCOp (ns : String) (ops : List COp) :
    ∀ cs : CollectorMemoryState, (∀ op ∈ ops, op.writesRelations ns = false) →
      (ops.foldl applyCOp cs).rdict ns = cs.rdict ns := by
  induction ops with
  | nil => intro cs _; rfl
  | cons op rest ih =>
    intro cs h
    rw [List.foldl_cons, ih _ fun o ho => h o (by simp [ho]),
      rdict_applyCOp_ne cs op ns (h op (by simp))]

/-- The record-key/registry invariant of the processor store: every key of
every stored record is registered in the field names of its namespace. -/
def Inv (s : ProcessorMemoryState) : Prop :=
  ∀ ns ident k, k ∈ dkeys (s.record ns ident) → k ∈ s.fieldnames ns

/-- Claim C1: after `merge(namespace, id, fields)` (`ProcessorMemoryState.update`)
the record at `(namespace, id)` exists, maps each key of `fields` to the
value `fields` gives it, keeps the previous value at every key not present
in `fields`, and every key of `fields` is in `fieldNames(namespace)`. -/
theorem C1_merge_correct (s : ProcessorMemoryState) (ns ident : String)
    (value : Dict Value) (hnd : (dkeys value).Nodup) :
    ident ∈ dkeys (getd (s.update ns ident value).outdata ns []) ∧
    (∀ k v, dlookup value k = some v →
      dlookup ((s.update ns ident value).record ns ident) k = some v) ∧
    (∀ k, dlookup value k = none →
      dlookup ((s.update ns ident value).record ns ident) k =
        dlookup (s.record ns ident) k) ∧
    (∀ k, k ∈ dkeys value → k ∈ (s.update ns ident value).fieldnames ns) := by
  refine ⟨?_, ?_, ?_, ?_⟩
  · simp only [ProcessorMemoryState.update, getd_dinsert_self]
    exact mem_dkeys_dinsert_self _ _ _
  · intro k v hk
    rw [record_update_self]
    exact dlookup_dupdate_mem value _ k v hnd hk
  · intro k hk
    rw [record_update_self]
    exact dlookup_dupdate_not_mem value _ k ((dlookup_eq_none_iff value k).mp hk)
  · intro k hk
    rw [fieldnames_update_self]
    exact mem_sunion_right _ hk

theorem C1_witness :
    (dkeys ([("a", Value.int 1)] : Dict Value)).Nodup ∧
    ("x" ∈ dkeys (getd (ProcessorMemoryState.empty.update "n" "x"
        [("a", Value.int 1)]).outdata "n" []) ∧
    (∀ k v, dlookup ([("a", Value.int 1)] : Dict Value) k = some v →
      dlookup ((ProcessorMemoryState.empty.update "n" "x"
        [("a", Value.int 1)]).record "n" "x") k = some v) ∧
    (∀ k, dlookup ([("a", Value.int 1)] : Dict Value) k = none →
      dlookup ((ProcessorMemoryState.empty.update "n" "x"
        [("a", Value.int 1)]).record "n" "x") k =
        dlookup (ProcessorMemoryState.empty.record "n" "x") k) ∧
    (∀ k, k ∈ dkeys ([("a", Value.int 1)] : Dict Value) →
      k ∈ (ProcessorMemoryState.empty.update "n" "x"
        [("a", Value.int 1)]).fieldnames "n")) :=
  ⟨by decide,
   C1_merge_correct ProcessorMemoryState.empty "n" "x" [("a", Value.int 1)] (by decide)⟩

/-- Claim C2: the key set of every stored record is a subset of its
field-name registry of the namespace; the invariant holds of the fresh store,
is preserved by `merge` (the only mutating operation of the processor
store), and the registry only grows: every registered key stays
registered after any further `merge`. -/
theorem C2_registry_invariant :
    Inv ProcessorMemoryState.empty ∧
    ∀ (s : ProcessorMemoryState) (ns ident : String) (value : Dict Value),
      Inv s →
      Inv (s.update ns ident value) ∧
      ∀ ns' k, k ∈ s.fieldnames ns' → k ∈ (s.update ns ident value).fieldnames ns' := by
  constructor
  · intro ns ident k hk
    simp [ProcessorMemoryState.record, ProcessorMemoryState.empty, getd, dlookup,
      dkeys] at hk
  · intro s ns ident value hs
    constructor
    · intro ns0 id0 k hk
      by_cases hmatch : ns0 = ns ∧ id0 = ident
      · obtain ⟨h1, h2⟩ := hmatch
        subst h1
        subst h2
        rw [record_update_self] at hk
        rcases dkeys_dupdate_subset value _ k hk with hk | hk
        · exact fieldnames_update_mono s ns0 id0 ns0 value (hs ns0 id0 k hk)
        · rw [fieldnames_update_self]
          exact mem_sunion_right _ hk
      · rw [record_update_ne s value hmatch] at hk
        exact fieldnames_update_mono s ns ident ns0 value (hs ns0 id0 k hk)
    · intro ns' k hk
      exact fieldnames_update_mono s ns ident ns' value hk

theorem C2_witness :
    Inv (ProcessorMemoryState.empty.update "n" "x" [("a", Value.int 1)]) ∧
    ∀ ns' k, k ∈ ProcessorMemoryState.empty.fieldnames ns' →
      k ∈ (ProcessorMemoryState.empty.update "n" "x"
        [("a", Value.int 1)]).fieldnames ns' :=
  C2_registry_invariant.2 ProcessorMemoryState.empty "n" "x" [("a", Value.int 1)]
    C2_registry_invariant.1

/-- Claim C9: `merge` is idempotent: performing
`merge(namespace, id, fields)` twice in succession yields exactly the
same store (same record and same field-name registry) as performing it
once. -/
theorem C9_merge_idempotent (s : ProcessorMemoryState) (ns ident : String)
    (value : Dict Value) (hnd : (dkeys value).Nodup) :
    (s.update ns ident value).update ns ident value = s.update ns ident value := by
  simp only [ProcessorMemoryState.update, getd_dinsert_self]
  rw [dupdate_idem value _ hnd, dinsert_dinsert_same, dinsert_dinsert_same,
    sunion_idem, dinsert_dinsert_same]

theorem C9_witness :
    (dkeys ([("a", Value.int 1)] : Dict Value)).Nodup ∧
    ((ProcessorMemoryState.empty.update "n" "x" [("a", Value.int 1)]).update "n" "x"
        [("a", Value.int 1)] =
      ProcessorMemoryState.empty.update "n" "x" [("a", Value.int 1)]) :=
  ⟨by decide,
   C9_merge_idempotent ProcessorMemoryState.empty "n" "x" [("a", Value.int 1)] (by decide)⟩

/-- Claim C10 (frame property of `merge`): `merge(namespace, id, fields)`
leaves every record at another `(namespace, identifier)` coordinate
unchanged, and leaves the field-name registry of every other namespace
unchanged. -/
theorem C10_merge_frame (s : ProcessorMemoryState) (ns ident ns' ident' : String)
    (value : Dict Value) :
    (¬(ns' = ns ∧ ident' = ident) →
      (s.update ns ident value).record ns' ident' = s.record ns' ident') ∧
    (ns' ≠ ns →
      (s.update ns ident value).fieldnames ns' = s.fieldnames ns') :=
  ⟨fun h => record_update_ne s value h,
   fun h => fieldnames_update_ne s ident value h⟩

theorem C10_witness :
    ((ProcessorMemoryState.empty.update "a" "x" [("f", Value.int 1)]).record "a" "y" =
      ProcessorMemoryState.empty.record "a" "y") ∧
    ((ProcessorMemoryState.empty.update "a" "x" [("f", Value.int 1)]).fieldnames "b" =
      ProcessorMemoryState.empty.fieldnames "b") :=
  ⟨(C10_merge_frame ProcessorMemoryState.empty "a" "x" "a" "y" [("f", Value.int 1)]).1
      (by decide),
   (C10_merge_frame ProcessorMemoryState.empty "a" "x" "b" "y" [("f", Value.int 1)]).2
      (by decide)⟩

/-- Claim C3: for a sequence of `defineField` calls
(`CollectorMemoryState.field`) with the same `(namespace, category, id)`
triple, a subsequent `entriesOf(namespace, category)` yields exactly one
pair for that id, whose entry is exactly the argument of the last call (no
merging of raw entries at this layer). -/
theorem C3_last_write_wins (cs : CollectorMemoryState) (ns cat ident : String)
    (es : List (Dict Value)) (elast : Dict Value)
    (hnd : (dkeys (cs.cdict ns cat)).Nodup) :
    ((((es ++ [elast]).foldl (fun st e => st.field ns cat ident e) cs).items
        ns cat).traverse.1).filter (fun p => p.1 == ident) = [(ident, elast)] := by
  rw [List.foldl_append, List.foldl_cons, List.foldl_nil]
  have h2 : (((es.foldl (fun st e => st.field ns cat ident e) cs).field ns cat
        ident elast).items ns cat).traverse.1 =
      dinsert ident elast ((es.foldl (fun st e => st.field ns cat ident e) cs).cdict
        ns cat) :=
    cdict_field_self _ ns cat ident elast
  rw [h2]
  exact filter_eq_single_of_lookup _ ident elast
    (dkeys_nodup_dinsert _ _ _ (cdict_foldl_field_nodup ns cat ident es cs hnd))
    (dlookup_dinsert_self _ _ _)

theorem C3_witness :
    (dkeys (CollectorMemoryState.empty.cdict "n" "c")).Nodup ∧
    (((([[("a", Value.int 1)]] ++ [[("b", Value.int 2)]]).foldl
        (fun st e => st.field "n" "c" "x" e) CollectorMemoryState.empty).items
        "n" "c").traverse.1).filter (fun p => p.1 == "x") =
      [("x", [("b", Value.int 2)])] :=
  ⟨by decide,
   C3_last_write_wins CollectorMemoryState.empty "n" "c" "x"
     [[("a", Value.int 1)]] [("b", Value.int 2)] (by decide)⟩

/-- Claim C4: `Processor.relate(A, B)` reads the `(fromId, toId)` pairs
stored under relation namespace `A ++ "--" ++ B` in the default category
and, for each pair, merges into processor-store namespace `A ++ "--" ++ B`
a record with identifier `fromId ++ "-" ++ toId` and fields
`{A: fromId, B: toId}`; records at identifiers not synthesized from a pair
are untouched. Stated for distinct `A`, `B` and collision-free synthesized
identifiers (the separator-collision case overwrites, as the spec notes
elsewhere). -/
theorem C4_relate_join (cs : CollectorMemoryState) (ps : ProcessorMemoryState)
    (A B : String) (hAB : A ≠ B)
    (hsy : ((cs.rdict (A ++ "--" ++ B)).map (fun p => p.1 ++ "-" ++ p.2)).Nodup) :
    (∀ p ∈ cs.rdict (A ++ "--" ++ B),
      dlookup ((Processor.relate cs ps A B).record (A ++ "--" ++ B)
          (p.1 ++ "-" ++ p.2)) A = some (Value.str p.1) ∧
      dlookup ((Processor.relate cs ps A B).record (A ++ "--" ++ B)
          (p.1 ++ "-" ++ p.2)) B = some (Value.str p.2)) ∧
    (∀ ident, ident ∉ (cs.rdict (A ++ "--" ++ B)).map (fun p => p.1 ++ "-" ++ p.2) →
      (Processor.relate cs ps A B).record (A ++ "--" ++ B) ident =
        ps.record (A ++ "--" ++ B) ident) := by
  have hrel : Processor.relate cs ps A B =
      (cs.rdict (A ++ "--" ++ B)).foldl
        (fun st p => st.update (A ++ "--" ++ B) (p.1 ++ "-" ++ p.2)
          (dinsert B (Value.str p.2) (dinsert A (Value.str p.1) []))) ps := rfl
  have hfd : ∀ p : String × String,
      dinsert B (Value.str p.2) (dinsert A (Value.str p.1) []) =
        [(A, Value.str p.1), (B, Value.str p.2)] := by
    intro p
    simp [dinsert, hAB]
  constructor
  · intro p hp
    have hrec := record_foldl_update_eq (A ++ "--" ++ B)
      (fun p => p.1 ++ "-" ++ p.2)
      (fun p => dinsert B (Value.str p.2) (dinsert A (Value.str p.1) []))
      (cs.rdict (A ++ "--" ++ B)) ps p hsy hp
    rw [hrel, hrec]
    simp only [hfd]
    have hknd : (dkeys ([(A, Value.str p.1), (B, Value.str p.2)] : Dict Value)).Nodup := by
      simp [dkeys, hAB]
    constructor
    · exact dlookup_dupdate_mem _ _ _ _ hknd (by simp [dlookup])
    · exact dlookup_dupdate_mem _ _ _ _ hknd (by simp [dlookup, hAB])
  · intro ident hid
    rw [hrel]
    exact record_foldl_update_notmem (A ++ "--" ++ B) _ _ _ ps _ ident (Or.inr hid)

theorem C4_witness :
    ("a" : String) ≠ "b" ∧
    ((((CollectorMemoryState.empty.relate "a--b" Collector.CATEGORY "1"
          "10").relate "a--b" Collector.CATEGORY "2" "20").rdict
        ("a" ++ "--" ++ "b")).map (fun p => p.1 ++ "-" ++ p.2)).Nodup ∧
    ((∀ p ∈ ((CollectorMemoryState.empty.relate "a--b" Collector.CATEGORY "1"
          "10").relate "a--b" Collector.CATEGORY "2" "20").rdict ("a" ++ "--" ++ "b"),
      dlookup ((Processor.relate ((CollectorMemoryState.empty.relate "a--b"
          Collector.CATEGORY "1" "10").relate "a--b" Collector.CATEGORY "2" "20")
          ProcessorMemoryState.empty "a" "b").record ("a" ++ "--" ++ "b")
          (p.1 ++ "-" ++ p.2)) "a" = some (Value.str p.1) ∧
      dlookup ((Processor.relate ((CollectorMemoryState.empty.relate "a--b"
          Collector.CATEGORY "1" "10").relate "a--b" Collector.CATEGORY "2" "20")
          ProcessorMemoryState.empty "a" "b").record ("a" ++ "--" ++ "b")
          (p.1 ++ "-" ++ p.2)) "b" = some (Value.str p.2)) ∧
    (∀ ident, ident ∉ (((CollectorMemoryState.empty.relate "a--b"
          Collector.CATEGORY "1" "10").relate "a--b" Collector.CATEGORY "2"
          "20").rdict ("a" ++ "--" ++ "b")).map (fun p => p.1 ++ "-" ++ p.2) →
      (Processor.relate ((CollectorMemoryState.empty.relate "a--b"
          Collector.CATEGORY "1" "10").relate "a--b" Collector.CATEGORY "2" "20")
          ProcessorMemoryState.empty "a" "b").record ("a" ++ "--" ++ "b") ident =
        ProcessorMemoryState.empty.record ("a" ++ "--" ++ "b") ident)) :=
  ⟨by decide, by decide,
   C4_relate_join ((CollectorMemoryState.empty.relate "a--b" Collector.CATEGORY "1"
       "10").relate "a--b" Collector.CATEGORY "2" "20")
     ProcessorMemoryState.empty "a" "b" (by decide) (by decide)⟩

/-- Claim C5: `processfields(namespace, category, func)` with a transform
`func` merges, for every raw entry stored at `(namespace, category)` under
identifier `id`, each key `k` of `func(entry)` into the processor-store
record at `(namespace, id)` under the qualified key
`category ++ "." ++ k`, with the value produced by the transform. -/
theorem C5_processfields_qualified (cs : CollectorMemoryState)
    (ps : ProcessorMemoryState) (ns cat : String)
    (f : Dict Value → Dict Value)
    (hnd : (dkeys (cs.cdict ns cat)).Nodup) :
    ∃ ps', Processor.processfields cs ps ns cat (fun e => Except.ok (f e)) =
        Except.ok ps' ∧
      ∀ p ∈ cs.cdict ns cat, (dkeys (f p.2)).Nodup →
        ∀ k v, dlookup (f p.2) k = some v →
          dlookup (ps'.record ns p.1) (cat ++ "." ++ k) = some v := by
  refine ⟨_, processfields_pure cs ps ns cat f, ?_⟩
  intro p hp hfnd k v hkv
  have hitems : (cs.items ns cat).traverse.1 = cs.cdict ns cat := rfl
  rw [hitems]
  have hrec := record_foldl_update_eq ns Prod.fst
    (fun p => prefixcat cat (f p.2)) (cs.cdict ns cat) ps p hnd hp
  simp only [] at hrec
  rw [hrec]
  exact dlookup_dupdate_mem _ _ _ _ (nodup_dkeys_prefixcat cat _ hfnd)
    (by rw [dlookup_prefixcat cat _ k hfnd]; exact hkv)

theorem C5_witness :
    (dkeys ((CollectorMemoryState.empty.field "amo.addon" "validator" "x"
        [("id", Value.str "x"), ("errors", Value.int 2),
         ("warnings", Value.int 1)]).cdict "amo.addon" "validator")).Nodup ∧
    ∃ ps', Processor.processfields
        (CollectorMemoryState.empty.field "amo.addon" "validator" "x"
          [("id", Value.str "x"), ("errors", Value.int 2), ("warnings", Value.int 1)])
        ProcessorMemoryState.empty "amo.addon" "validator"
        (fun _ => Except.ok [("errors", Value.int 2), ("warnings", Value.int 1)]) =
          Except.ok ps' ∧
      ∀ p ∈ (CollectorMemoryState.empty.field "amo.addon" "validator" "x"
          [("id", Value.str "x"), ("errors", Value.int 2),
           ("warnings", Value.int 1)]).cdict "amo.addon" "validator",
        (dkeys (([("errors", Value.int 2), ("warnings", Value.int 1)] : Dict Value))).Nodup →
        ∀ k v, dlookup ([("errors", Value.int 2), ("warnings", Value.int 1)] : Dict Value)
            k = some v →
          dlookup (ps'.record "amo.addon" p.1) ("validator" ++ "." ++ k) = some v :=
  ⟨by decide,
   C5_processfields_qualified
     (CollectorMemoryState.empty.field "amo.addon" "validator" "x"
       [("id", Value.str "x"), ("errors", Value.int 2), ("warnings", Value.int 1)])
     ProcessorMemoryState.empty "amo.addon" "validator"
     (fun _ => [("errors", Value.int 2), ("warnings", Value.int 1)]) (by decide)⟩

/-- Claim C6: `selectfields(namespace, category, fields)` with an explicit
field list fails (raises the `KeyError`, modelled as `Except.error`) when
some raw entry stored at `(namespace, category)` lacks one of the listed
fields; no default is substituted. -/
theorem C6_selectfields_missing_field (cs : CollectorMemoryState)
    (ps : ProcessorMemoryState) (ns cat : String) (fs : List String)
    (p : String × Dict Value) (f : String)
    (hp : p ∈ cs.cdict ns cat) (hf : f ∈ fs) (hmiss : dlookup p.2 f = none) :
    ∃ e, Processor.selectfields cs ps ns cat (some fs) = Except.error e := by
  have hlim : ∀ acc : Dict Value, ∃ e,
      (fs.foldlM (fun acc g =>
        match dlookup p.2 g with
        | some v => pure (dinsert g v acc)
        | none => Except.error g) acc) = Except.error e := by
    intro acc
    exact foldlM_except_error _ f (fun s => ⟨f, by rw [hmiss]⟩) fs acc hf
  have hstep : ∀ st : ProcessorMemoryState, ∃ e,
      ((do
        let fields ← limitfields fs p.2
        pure (st.update ns p.1 (prefixcat cat fields))) :
          Except String ProcessorMemoryState) = Except.error e := by
    intro st
    obtain ⟨e, he⟩ := hlim []
    refine ⟨e, ?_⟩
    rw [show limitfields fs p.2 = Except.error e from he]
    rfl
  have hp' : p ∈ (cs.items ns cat).traverse.1 := hp
  exact foldlM_except_error _ p hstep ((cs.items ns cat).traverse.1) ps hp'

theorem C6_witness :
    ("x", ([("id", Value.str "x")] : Dict Value)) ∈
      (CollectorMemoryState.empty.field "n" "c" "x"
        [("id", Value.str "x")]).cdict "n" "c" ∧
    "guid" ∈ ["id", "guid"] ∧
    dlookup ([("id", Value.str "x")] : Dict Value) "guid" = none ∧
    ∃ e, Processor.selectfields
        (CollectorMemoryState.empty.field "n" "c" "x" [("id", Value.str "x")])
        ProcessorMemoryState.empty "n" "c" (some ["id", "guid"]) =
      Except.error e :=
  ⟨by decide, by decide, by decide,
   C6_selectfields_missing_field
     (CollectorMemoryState.empty.field "n" "c" "x" [("id", Value.str "x")])
     ProcessorMemoryState.empty "n" "c" ["id", "guid"]
     ("x", [("id", Value.str "x")]) "guid" (by decide) (by decide) (by decide)⟩

/-- Claim C7: reading a `(namespace, category)` that no write of the run
ever touched yields an empty sequence from `items`, and reading the
relations of a never-related namespace yields an empty sequence from
`relationitems`; both are total functions of the store (the defaultdict
layout never raises). -/
theorem C7_unwritten_reads_empty (ops : List COp) (ns cat : String) :
    ((∀ op ∈ ops, op.writesEntries ns cat = false) →
      ((runC ops).items ns cat).traverse.1 = []) ∧
    ((∀ op ∈ ops, op.writesRelations ns = false) →
      ((runC ops).relationitems ns).traverse.1 = []) := by
  constructor
  · intro h
    show (runC ops).cdict ns cat = []
    rw [runC, cdict_foldl_applyCOp ns cat ops _ h]
    rfl
  · intro h
    show (runC ops).rdict ns = []
    rw [runC, rdict_foldl_applyCOp ns ops _ h]
    rfl

theorem C7_witness :
    ((runC [COp.fieldOp "n" "c" "x" [("a", Value.int 1)],
        COp.relateOp "n--m" Collector.CATEGORY "1" "2"]).items "q" "c").traverse.1 = [] ∧
    ((runC [COp.fieldOp "n" "c" "x" [("a", Value.int 1)],
        COp.relateOp "n--m" Collector.CATEGORY "1" "2"]).relationitems "q").traverse.1 = [] :=
  ⟨(C7_unwritten_reads_empty
      [COp.fieldOp "n" "c" "x" [("a", Value.int 1)],
       COp.relateOp "n--m" Collector.CATEGORY "1" "2"] "q" "c").1 (by decide),
   (C7_unwritten_reads_empty
      [COp.fieldOp "n" "c" "x" [("a", Value.int 1)],
       COp.relateOp "n--m" Collector.CATEGORY "1" "2"] "q" "c").2 (by decide)⟩

/-- Claim C8 is false on the code: `items` returns the Python 2
`dict.iteritems()` iterator, which is single-use. Traversing the sequence
produced for a store holding one entry yields that entry; traversing the
same sequence again yields nothing, so the two traversals do not produce
the same set of pairs. -/
theorem C8_counterexample :
    ¬((((CollectorMemoryState.empty.field "addon" "base" "x"
          [("f", Value.int 1)]).items "addon" "base").traverse.2).traverse.1 =
      (((CollectorMemoryState.empty.field "addon" "base" "x"
          [("f", Value.int 1)]).items "addon" "base").traverse.1)) := by
  decide

/-- Claim C8 (amended): the sequence produced by
`entriesOf(namespace, category)` yields, in one traversal, exactly the
pairs currently stored at that coordinate, but it is single-use: after one
traversal the iterator is exhausted and a further traversal yields the
empty sequence. -/
theorem C8_amended_single_use (cs : CollectorMemoryState) (ns cat : String) :
    (cs.items ns cat).traverse.1 = cs.cdict ns cat ∧
    ((cs.items ns cat).traverse.2).traverse.1 = [] :=
  ⟨rfl, rfl⟩

end Amolyst
